import Mathlib

/-!
Verification of the coordinate-indexing core of `landshark`
(`src/landshark/image.py`): the edge-grid builder `pixel_coordinates`,
the forward lookup `image_to_world` and the inverse lookup
`world_to_image`.

The embedding is exact-arithmetic (`ℚ` for the float64 coordinate
values, `ℤ` for int64 pixel indices).  All the properties at stake are
order/equality facts about values that the code only copies and
compares (the forward lookup returns a stored grid element unchanged,
and the inverse lookup only compares queries against stored elements),
so exact arithmetic models the observable behaviour faithfully.

Python exceptions are modelled by an `Except PyError` result:
`.assertionError` for a failed bare `assert` (which carries no
payload), `.valueError msg` for `raise ValueError(msg)`, and
`.indexError` for an out-of-range sequence access.
-/

namespace Landshark

/-- Numpy dtypes that occur in the asserts of `image_to_world`. -/
inductive Dtype where
  | int32
  | int64
  | float32
  | float64
deriving DecidableEq

/-- A numpy array as seen by the asserts of `image_to_world`: a dtype
tag, an `ndim` tag and the (flat) element data.  The functions under
verification only ever touch the data after asserting `ndim == 1`. -/
structure NDArray (α : Type) where
  dtype : Dtype
  ndim : Nat
  data : List α
deriving DecidableEq

/-- Python exception outcomes of the three functions: a bare
`AssertionError` (no payload), `ValueError(msg)`, `IndexError`. -/
inductive PyError where
  | assertionError
  | valueError (msg : String)
  | indexError
deriving DecidableEq

/-- The six coefficients of an `affine.Affine` transform, in the
package's order: `x' = a*x + b*y + c`, `y' = d*x + e*y + f`, so
`affine[0] = a` (x-scale), `affine[2] = c` (x-origin),
`affine[4] = e` (y-scale), `affine[5] = f` (y-origin). -/
structure Affine where
  a : ℚ
  b : ℚ
  c : ℚ
  d : ℚ
  e : ℚ
  f : ℚ
deriving DecidableEq

/-- The `affine` package's `Affine.is_rectilinear` property:
`(a == 0 and e == 0) or (b == 0 and d == 0)`. -/
def Affine.isRectilinear (t : Affine) : Bool :=
  (t.a = 0 ∧ t.e = 0) ∨ (t.b = 0 ∧ t.d = 0)

/-- Embedding of `np.arange(n, dtype=np.float64)` for an integer argument `n`:
the values `0, 1, ..., n-1`, empty when `n ≤ 0`. -/
def npArange (n : ℤ) : List ℚ :=
  List.map (fun k : ℕ => (k : ℚ)) (List.range n.toNat)

/-- Embedding of `pixel_coordinates(width, height, affine)` from
`src/landshark/image.py`: asserts `affine.is_rectilinear`, then builds
`coords_x = arange(width+1) * affine[0] + affine[2]` and
`coords_y = arange(height+1) * (-affine[4]) + affine[5]`. -/
def pixel_coordinates (width height : ℤ) (affine : Affine) :
    Except PyError (List ℚ × List ℚ) :=
  if ¬ affine.isRectilinear then .error .assertionError
  else
    let pixelWidth : ℚ := affine.a
    let pixelHeight : ℚ := -1 * affine.e
    let originX : ℚ := affine.c
    let originY : ℚ := affine.f
    let coordsX := (npArange (width + 1)).map (fun p => p * pixelWidth + originX)
    let coordsY := (npArange (height + 1)).map (fun p => p * pixelHeight + originY)
    .ok (coordsX, coordsY)

/-- Embedding of `image_to_world(indices, pixel_coordinate_array)`: the six
`assert` statements in source order, then the gather
`pixel_coordinate_array[indices]` (all indices are already known
non-negative and within range when the gather runs). -/
def image_to_world (indices : NDArray ℤ) (grid : NDArray ℚ) :
    Except PyError (List ℚ) :=
  if indices.ndim ≠ 1 then .error .assertionError
  else if indices.dtype ≠ .int64 then .error .assertionError
  else if grid.ndim ≠ 1 then .error .assertionError
  else if grid.dtype ≠ .float64 then .error .assertionError
  else if ¬ indices.data.all (fun i => decide (0 ≤ i)) then .error .assertionError
  else if ¬ indices.data.all (fun i => decide (i < (grid.data.length : ℤ) - 1)) then
    .error .assertionError
  else .ok (indices.data.map (fun i => grid.data.getD i.toNat 0))

/-- Embedding of `np.searchsorted(a, v, side="left")` under its documented contract
for a sorted array: the first index `i` with `a[i] >= v` (equivalently
`a[i-1] < v <= a[i]`), i.e. the length of the longest prefix of
elements `< v`. -/
def searchsortedLeft : List ℚ → ℚ → ℕ
  | [], _ => 0
  | x :: xs, v => if x < v then searchsortedLeft xs v + 1 else 0

/-- Embedding of `np.searchsorted(a, v, side="right")` under its documented contract
for a sorted array: the first index `i` with `a[i] > v` (equivalently
`a[i-1] <= v < a[i]`), i.e. the length of the longest prefix of
elements `<= v`. -/
def searchsortedRight : List ℚ → ℚ → ℕ
  | [], _ => 0
  | x :: xs, v => if x ≤ v then searchsortedRight xs v + 1 else 0

/-- The per-point index computed by `world_to_image` before the
closed-interval adjustment: `searchsorted(grid[::-1], q, "left") + 1`
subtracted from `len(grid)` when `grid[1] < grid[0]` (descending), and
`searchsorted(grid, q, "right") - 1` otherwise. -/
def rawIndex (grid : List ℚ) (q : ℚ) : ℤ :=
  if grid.getD 1 0 < grid.getD 0 0 then
    (grid.length : ℤ) - ((searchsortedLeft grid.reverse q : ℤ) + 1)
  else
    (searchsortedRight grid q : ℤ) - 1

/-- The per-point index after the boundary-closure step
`idx[points == grid[-1]] -= 1` of `world_to_image`. -/
def closedIndex (grid : List ℚ) (q : ℚ) : ℤ :=
  if q = (grid.getLast?).getD 0 then rawIndex grid q - 1 else rawIndex grid q

/-- Embedding of `world_to_image(points, pixel_coordinate_array)`: orientation
detection from `grid[1] < grid[0]` (an `IndexError` when the grid has
fewer than two elements), the vectorised ordered search, the
closed-interval adjustment at `grid[-1]`, and the final validation
`all(0 <= idx < len(grid) - 1)`, raising
`ValueError("Queried location is not in the image")` when it fails. -/
def world_to_image (points : List ℚ) (grid : List ℚ) :
    Except PyError (List ℤ) :=
  if grid.length < 2 then .error .indexError
  else if (points.map (closedIndex grid)).all
      (fun i => decide (0 ≤ i ∧ i < (grid.length : ℤ) - 1)) then
    .ok (points.map (closedIndex grid))
  else .error (.valueError "Queried location is not in the image")

/-! ### Helper lemmas about sorted lists and the ordered searches -/

theorem ssRight_le_length (g : List ℚ) (q : ℚ) :
    searchsortedRight g q ≤ g.length := by
  induction g with
  | nil => simp [searchsortedRight]
  | cons x xs ih =>
    simp only [searchsortedRight, List.length_cons]
    split
    · omega
    · omega

theorem ssLeft_le_length (g : List ℚ) (q : ℚ) :
    searchsortedLeft g q ≤ g.length := by
  induction g with
  | nil => simp [searchsortedLeft]
  | cons x xs ih =>
    simp only [searchsortedLeft, List.length_cons]
    split
    · omega
    · omega

theorem pairwise_getD {r : ℚ → ℚ → Prop} {g : List ℚ} (hp : g.Pairwise r)
    {i j : ℕ} (hij : i < j) (hj : j < g.length) :
    r (g.getD i 0) (g.getD j 0) := by
  rw [List.getD_eq_getElem _ _ (by omega), List.getD_eq_getElem _ _ hj]
  exact List.pairwise_iff_getElem.mp hp i j (by omega) hj hij

theorem mem_of_getD {g : List ℚ} {j : ℕ} (hj : j < g.length) :
    g.getD j 0 ∈ g := by
  rw [List.getD_eq_getElem _ _ hj]
  exact List.getElem_mem hj

/-- On a strictly ascending list, the right-biased search returns the
count of indices whose element is `≤ q`: position `j` holds an element
`≤ q` exactly when `j` is below the returned insertion point. -/
theorem ssRight_iff (q : ℚ) :
    ∀ g : List ℚ, g.Pairwise (· < ·) →
      ∀ j, j < g.length → (g.getD j 0 ≤ q ↔ j < searchsortedRight g q) := by
  intro g
  induction g with
  | nil => intro _ j hj; simp at hj
  | cons x xs ih =>
    intro hp j hj
    have hhead : ∀ y ∈ xs, x < y := (List.pairwise_cons.mp hp).1
    have htail : xs.Pairwise (· < ·) := (List.pairwise_cons.mp hp).2
    simp only [searchsortedRight]
    by_cases hxq : x ≤ q
    · rw [if_pos hxq]
      cases j with
      | zero =>
        simp only [List.getD_cons_zero]
        exact iff_of_true hxq (Nat.succ_pos _)
      | succ j =>
        simp only [List.getD_cons_succ, Nat.succ_lt_succ_iff]
        exact ih htail j (by simpa using hj)
    · rw [if_neg hxq]
      cases j with
      | zero =>
        simp only [List.getD_cons_zero]
        exact iff_of_false hxq (by omega)
      | succ j =>
        simp only [List.getD_cons_succ]
        have hjx : j < xs.length := by simpa using hj
        have : x < xs.getD j 0 := hhead _ (mem_of_getD hjx)
        exact iff_of_false (by linarith [not_le.mp hxq]) (by omega)

/-- On a strictly ascending list, the left-biased search returns the
count of indices whose element is `< q`. -/
theorem ssLeft_iff (q : ℚ) :
    ∀ g : List ℚ, g.Pairwise (· < ·) →
      ∀ j, j < g.length → (g.getD j 0 < q ↔ j < searchsortedLeft g q) := by
  intro g
  induction g with
  | nil => intro _ j hj; simp at hj
  | cons x xs ih =>
    intro hp j hj
    have hhead : ∀ y ∈ xs, x < y := (List.pairwise_cons.mp hp).1
    have htail : xs.Pairwise (· < ·) := (List.pairwise_cons.mp hp).2
    simp only [searchsortedLeft]
    by_cases hxq : x < q
    · rw [if_pos hxq]
      cases j with
      | zero =>
        simp only [List.getD_cons_zero]
        exact iff_of_true hxq (Nat.succ_pos _)
      | succ j =>
        simp only [List.getD_cons_succ, Nat.succ_lt_succ_iff]
        exact ih htail j (by simpa using hj)
    · rw [if_neg hxq]
      cases j with
      | zero =>
        simp only [List.getD_cons_zero]
        exact iff_of_false hxq (by omega)
      | succ j =>
        simp only [List.getD_cons_succ]
        have hjx : j < xs.length := by simpa using hj
        have : x < xs.getD j 0 := hhead _ (mem_of_getD hjx)
        exact iff_of_false (by linarith [not_lt.mp hxq]) (by omega)

/-- Pin the right-biased search inside a half-open cell of an
ascending grid. -/
theorem ssRight_eq_of_cell {g : List ℚ} (hp : g.Pairwise (· < ·))
    {i : ℕ} (hi : i + 1 < g.length) {q : ℚ}
    (h1 : g.getD i 0 ≤ q) (h2 : q < g.getD (i + 1) 0) :
    searchsortedRight g q = i + 1 := by
  have hlo := (ssRight_iff q g hp i (by omega)).mp h1
  have hhi : ¬ (i + 1 < searchsortedRight g q) := by
    intro hcon
    exact absurd ((ssRight_iff q g hp (i + 1) hi).mpr hcon) (not_le.mpr h2)
  omega

/-- The right-biased search lands one past the end whenever the query
is at or beyond the last element of an ascending grid. -/
theorem ssRight_eq_length {g : List ℚ} (hp : g.Pairwise (· < ·))
    (hlen : 1 ≤ g.length) {q : ℚ} (hq : g.getD (g.length - 1) 0 ≤ q) :
    searchsortedRight g q = g.length := by
  have hall : ∀ j, j < g.length → j < searchsortedRight g q := by
    intro j hj
    refine (ssRight_iff q g hp j hj).mp ?_
    rcases Nat.lt_or_ge j (g.length - 1) with hlt | hge
    · exact le_of_lt (lt_of_lt_of_le (pairwise_getD hp hlt (by omega)) hq)
    · have : j = g.length - 1 := by omega
      simpa [this] using hq
  have h1 := hall (g.length - 1) (by omega)
  have h2 := ssRight_le_length g q
  omega

/-- The right-biased search returns zero when the query is strictly
below the first element of an ascending grid. -/
theorem ssRight_eq_zero {g : List ℚ} (hp : g.Pairwise (· < ·))
    (hlen : 1 ≤ g.length) {q : ℚ} (hq : q < g.getD 0 0) :
    searchsortedRight g q = 0 := by
  by_contra hne
  have : g.getD 0 0 ≤ q := (ssRight_iff q g hp 0 (by omega)).mpr (by omega)
  linarith

/-- The left-biased search returns zero when the query is at or below
the first element of an ascending grid. -/
theorem ssLeft_eq_zero {g : List ℚ} (hp : g.Pairwise (· < ·))
    (hlen : 1 ≤ g.length) {q : ℚ} (hq : q ≤ g.getD 0 0) :
    searchsortedLeft g q = 0 := by
  by_contra hne
  have : g.getD 0 0 < q := (ssLeft_iff q g hp 0 (by omega)).mpr (by omega)
  linarith

/-- The left-biased search lands one past the end when the query is
strictly above the last element of an ascending grid. -/
theorem ssLeft_eq_length {g : List ℚ} (hp : g.Pairwise (· < ·))
    (hlen : 1 ≤ g.length) {q : ℚ} (hq : g.getD (g.length - 1) 0 < q) :
    searchsortedLeft g q = g.length := by
  have hall : ∀ j, j < g.length → j < searchsortedLeft g q := by
    intro j hj
    refine (ssLeft_iff q g hp j hj).mp ?_
    rcases Nat.lt_or_ge j (g.length - 1) with hlt | hge
    · exact lt_trans (pairwise_getD hp hlt (by omega)) hq
    · have : j = g.length - 1 := by omega
      simpa [this] using hq
  have h1 := hall (g.length - 1) (by omega)
  have h2 := ssLeft_le_length g q
  omega

/-- Reversing a strictly descending list gives a strictly ascending
one. -/
theorem pairwise_reverse_of_desc {g : List ℚ} (hp : g.Pairwise (· > ·)) :
    g.reverse.Pairwise (· < ·) := by
  rw [List.pairwise_reverse]
  exact hp

/-- Element `j` of the reversed list is element `length - 1 - j` of the
original. -/
theorem reverse_getD {g : List ℚ} {j : ℕ} (hj : j < g.length) :
    g.reverse.getD j 0 = g.getD (g.length - 1 - j) 0 := by
  rw [List.getD_eq_getElem _ _ (by simpa using hj), List.getElem_reverse,
    List.getD_eq_getElem _ _ (by omega)]

/-- The `grid[-1]` Python access, written with `getLast?`, is element
`length - 1`. -/
theorem getLast_getD {g : List ℚ} (hlen : 1 ≤ g.length) :
    (g.getLast?).getD 0 = g.getD (g.length - 1) 0 := by
  rw [List.getLast?_eq_getElem?, List.getElem?_eq_getElem (by omega),
    Option.getD_some, List.getD_eq_getElem _ _ (by omega)]

/-- On an ascending grid the orientation test takes the right-biased
branch. -/
theorem rawIndex_asc {g : List ℚ} (hp : g.Pairwise (· < ·))
    (hlen : 2 ≤ g.length) (q : ℚ) :
    rawIndex g q = (searchsortedRight g q : ℤ) - 1 := by
  rw [rawIndex, if_neg (not_lt.mpr (le_of_lt
    (pairwise_getD hp Nat.zero_lt_one (by omega))))]

/-- On a descending grid the orientation test takes the reversed
left-biased branch. -/
theorem rawIndex_desc {g : List ℚ} (hp : g.Pairwise (· > ·))
    (hlen : 2 ≤ g.length) (q : ℚ) :
    rawIndex g q =
      (g.length : ℤ) - ((searchsortedLeft g.reverse q : ℤ) + 1) := by
  rw [rawIndex, if_pos (pairwise_getD hp Nat.zero_lt_one (by omega))]

/-- A query in the half-open cell `[g_i, g_{i+1})` of an ascending grid
resolves to pixel `i`. -/
theorem wti_ok_asc {g : List ℚ} (hp : g.Pairwise (· < ·)) {i : ℕ}
    (hi : i + 1 < g.length) {q : ℚ}
    (h1 : g.getD i 0 ≤ q) (h2 : q < g.getD (i + 1) 0) :
    world_to_image [q] g = .ok [(i : ℤ)] := by
  have hlen : 2 ≤ g.length := by omega
  have hraw : rawIndex g q = (i : ℤ) := by
    rw [rawIndex_asc hp hlen, ssRight_eq_of_cell hp hi h1 h2]
    omega
  have hqlast : q < g.getD (g.length - 1) 0 := by
    rcases Nat.lt_or_ge (i + 1) (g.length - 1) with hlt | hge
    · exact lt_trans h2 (pairwise_getD hp hlt (by omega))
    · have heq : i + 1 = g.length - 1 := by omega
      exact heq ▸ h2
  have hclosed : closedIndex g q = (i : ℤ) := by
    rw [closedIndex, if_neg, hraw]
    rw [getLast_getD (by omega)]
    exact ne_of_lt hqlast
  have hcond : ([(i : ℤ)].all
      (fun x => decide (0 ≤ x ∧ x < (g.length : ℤ) - 1))) = true := by
    simp only [List.all_cons, List.all_nil, Bool.and_true, decide_eq_true_eq]
    omega
  simp [world_to_image, show ¬ g.length < 2 by omega, hclosed, hcond]
  omega

/-- A query in the half-open cell `(g_{i+1}, g_i]` of a descending grid
resolves to pixel `i`. -/
theorem wti_ok_desc {g : List ℚ} (hp : g.Pairwise (· > ·)) {i : ℕ}
    (hi : i + 1 < g.length) {q : ℚ}
    (h1 : q ≤ g.getD i 0) (h2 : g.getD (i + 1) 0 < q) :
    world_to_image [q] g = .ok [(i : ℤ)] := by
  have hlen : 2 ≤ g.length := by omega
  have hrev : g.reverse.Pairwise (· < ·) := pairwise_reverse_of_desc hp
  have hrevlen : g.reverse.length = g.length := List.length_reverse g
  have hk : searchsortedLeft g.reverse q = g.length - 1 - i := by
    have hub : ¬ (g.length - 1 - i < searchsortedLeft g.reverse q) := by
      intro hcon
      have hx := (ssLeft_iff q g.reverse hrev (g.length - 1 - i)
        (by omega)).mpr hcon
      rw [reverse_getD (by omega)] at hx
      have heq : g.length - 1 - (g.length - 1 - i) = i := by omega
      rw [heq] at hx
      linarith
    have hlb : g.length - 2 - i < searchsortedLeft g.reverse q := by
      refine (ssLeft_iff q g.reverse hrev (g.length - 2 - i)
        (by omega)).mp ?_
      rw [reverse_getD (by omega)]
      have heq : g.length - 1 - (g.length - 2 - i) = i + 1 := by omega
      rw [heq]
      exact h2
    omega
  have hraw : rawIndex g q = (i : ℤ) := by
    rw [rawIndex_desc hp hlen, hk]
    omega
  have hqlast : g.getD (g.length - 1) 0 < q := by
    rcases Nat.lt_or_ge (i + 1) (g.length - 1) with hlt | hge
    · exact lt_trans (pairwise_getD hp hlt (by omega)) h2
    · have heq : i + 1 = g.length - 1 := by omega
      exact heq ▸ h2
  have hclosed : closedIndex g q = (i : ℤ) := by
    rw [closedIndex, if_neg, hraw]
    rw [getLast_getD (by omega)]
    exact ne_of_gt hqlast
  have hcond : ([(i : ℤ)].all
      (fun x => decide (0 ≤ x ∧ x < (g.length : ℤ) - 1))) = true := by
    simp only [List.all_cons, List.all_nil, Bool.and_true, decide_eq_true_eq]
    omega
  simp [world_to_image, show ¬ g.length < 2 by omega, hclosed, hcond]
  omega

/-- Below the first edge of an ascending grid the computed index is
`-1`. -/
theorem closedIndex_lt_first_asc {g : List ℚ} (hp : g.Pairwise (· < ·))
    (hlen : 2 ≤ g.length) {q : ℚ} (hq : q < g.getD 0 0) :
    closedIndex g q = -1 := by
  have hlast : q < g.getD (g.length - 1) 0 :=
    lt_trans hq (pairwise_getD hp (by omega) (by omega))
  rw [closedIndex, if_neg, rawIndex_asc hp hlen,
    ssRight_eq_zero hp (by omega) hq]
  · rfl
  · rw [getLast_getD (by omega)]
    exact ne_of_lt hlast

/-- Above the last edge of an ascending grid the computed index is
`length - 1`, one past the last pixel. -/
theorem closedIndex_gt_last_asc {g : List ℚ} (hp : g.Pairwise (· < ·))
    (hlen : 2 ≤ g.length) {q : ℚ} (hq : g.getD (g.length - 1) 0 < q) :
    closedIndex g q = (g.length : ℤ) - 1 := by
  have hne : q ≠ (g.getLast?).getD 0 := by
    rw [getLast_getD (by omega)]
    exact ne_of_gt hq
  rw [closedIndex, if_neg hne, rawIndex_asc hp hlen,
    ssRight_eq_length hp (by omega) (le_of_lt hq)]

/-- Above the first edge of a descending grid the computed index is
`-1`. -/
theorem closedIndex_gt_first_desc {g : List ℚ} (hp : g.Pairwise (· > ·))
    (hlen : 2 ≤ g.length) {q : ℚ} (hq : g.getD 0 0 < q) :
    closedIndex g q = -1 := by
  have hrev : g.reverse.Pairwise (· < ·) := pairwise_reverse_of_desc hp
  have hlast : g.getD (g.length - 1) 0 < q :=
    lt_trans (pairwise_getD hp (by omega) (by omega)) hq
  have hss : searchsortedLeft g.reverse q = g.length := by
    have h0 : g.reverse.getD (g.reverse.length - 1) 0 = g.getD 0 0 := by
      rw [List.length_reverse, reverse_getD (by omega)]
      congr 1
      omega
    have := ssLeft_eq_length hrev (by rw [List.length_reverse]; omega)
      (by rw [h0]; exact hq)
    rwa [List.length_reverse] at this
  rw [closedIndex, if_neg, rawIndex_desc hp hlen, hss]
  · omega
  · rw [getLast_getD (by omega)]
    exact ne_of_gt hlast

/-- Below the last edge of a descending grid the computed index is
`length - 1`, one past the last pixel. -/
theorem closedIndex_lt_last_desc {g : List ℚ} (hp : g.Pairwise (· > ·))
    (hlen : 2 ≤ g.length) {q : ℚ} (hq : q < g.getD (g.length - 1) 0) :
    closedIndex g q = (g.length : ℤ) - 1 := by
  have hrev : g.reverse.Pairwise (· < ·) := pairwise_reverse_of_desc hp
  have hss : searchsortedLeft g.reverse q = 0 := by
    refine ssLeft_eq_zero hrev (by rw [List.length_reverse]; omega) ?_
    rw [reverse_getD (by omega), Nat.sub_zero]
    exact le_of_lt hq
  rw [closedIndex, if_neg, rawIndex_desc hp hlen, hss]
  · omega
  · rw [getLast_getD (by omega)]
    exact ne_of_lt hq

/-- A call whose computed indices are all in the valid pixel range
returns them. -/
theorem wti_ok_of_closed {g : List ℚ} {points : List ℚ}
    (hlen : 2 ≤ g.length)
    (h : ∀ q ∈ points,
      0 ≤ closedIndex g q ∧ closedIndex g q < (g.length : ℤ) - 1) :
    world_to_image points g = .ok (points.map (closedIndex g)) := by
  have hall : ((points.map (closedIndex g)).all
      (fun i => decide (0 ≤ i ∧ i < (g.length : ℤ) - 1))) = true := by
    rw [List.all_eq_true]
    intro x hx
    rcases List.mem_map.mp hx with ⟨p, hp, rfl⟩
    exact decide_eq_true (h p hp)
  simp only [world_to_image, if_neg (show ¬ g.length < 2 by omega)]
  rw [if_pos hall]

/-- A single query whose computed index falls outside the valid pixel
range makes the whole call fail with the fixed `ValueError`. -/
theorem wti_error_of_bad {g : List ℚ} {points : List ℚ}
    (hlen : 2 ≤ g.length) {q : ℚ} (hq : q ∈ points)
    (hbad : ¬ (0 ≤ closedIndex g q ∧ closedIndex g q < (g.length : ℤ) - 1)) :
    world_to_image points g =
      .error (.valueError "Queried location is not in the image") := by
  have hall : ((points.map (closedIndex g)).all
      (fun i => decide (0 ≤ i ∧ i < (g.length : ℤ) - 1))) = false := by
    rw [List.all_eq_false]
    refine ⟨closedIndex g q, List.mem_map_of_mem _ hq, ?_⟩
    simpa using hbad
  have hneg : ¬ (((points.map (closedIndex g)).all
      (fun i => decide (0 ≤ i ∧ i < (g.length : ℤ) - 1))) = true) := by
    rw [hall]
    exact Bool.false_ne_true
  simp only [world_to_image, if_neg (show ¬ g.length < 2 by omega)]
  rw [if_neg hneg]

/-- Inversion of a successful singleton inverse lookup. -/
theorem wti_singleton_ok_elim {g : List ℚ} {q : ℚ} {j : ℤ}
    (h : world_to_image [q] g = .ok [j]) :
    2 ≤ g.length ∧ closedIndex g q = j := by
  by_cases hlen : g.length < 2
  · rw [world_to_image, if_pos hlen] at h
    exact absurd h (by simp)
  · refine ⟨by omega, ?_⟩
    rw [world_to_image, if_neg hlen] at h
    split at h
    · simpa using h
    · exact absurd h (by simp)

/-- The boundary-closure step moves the exact final edge down to the
last pixel index, for either orientation. -/
theorem closedIndex_last {g : List ℚ} (hlen : 2 ≤ g.length)
    (hmono : g.Pairwise (· < ·) ∨ g.Pairwise (· > ·)) :
    closedIndex g (g.getD (g.length - 1) 0) = (g.length : ℤ) - 2 := by
  have hraw : rawIndex g (g.getD (g.length - 1) 0) = (g.length : ℤ) - 1 := by
    rcases hmono with hp | hp
    · rw [rawIndex_asc hp hlen, ssRight_eq_length hp (by omega) (le_refl _)]
    · have hss : searchsortedLeft g.reverse (g.getD (g.length - 1) 0) = 0 := by
        refine ssLeft_eq_zero (pairwise_reverse_of_desc hp)
          (by rw [List.length_reverse]; omega) ?_
        rw [reverse_getD (by omega), Nat.sub_zero]
      rw [rawIndex_desc hp hlen, hss]
      omega
  rw [closedIndex, if_pos (getLast_getD (by omega)).symm, hraw]
  omega

/-- Querying the exact final edge returns the last pixel index, for
either orientation. -/
theorem wti_last_edge {g : List ℚ} (hlen : 2 ≤ g.length)
    (hmono : g.Pairwise (· < ·) ∨ g.Pairwise (· > ·)) :
    world_to_image [g.getD (g.length - 1) 0] g =
      .ok [(g.length : ℤ) - 2] := by
  have hclosed := closedIndex_last hlen hmono
  have hin : ∀ p ∈ [g.getD (g.length - 1) 0],
      0 ≤ closedIndex g p ∧ closedIndex g p < (g.length : ℤ) - 1 := by
    intro p hp
    rw [List.mem_singleton] at hp
    subst hp
    rw [hclosed]
    omega
  rw [wti_ok_of_closed hlen hin]
  simp only [List.map_cons, List.map_nil, hclosed]

/-- A forward lookup with well-typed arguments and in-range indices
returns the gathered grid values. -/
theorem itw_ok {ind : List ℤ} {g : List ℚ}
    (h : ∀ i ∈ ind, 0 ≤ i ∧ i < (g.length : ℤ) - 1) :
    image_to_world ⟨.int64, 1, ind⟩ ⟨.float64, 1, g⟩ =
      .ok (ind.map (fun i => g.getD i.toNat 0)) := by
  have h1 : (ind.all (fun i => decide (0 ≤ i))) = true :=
    List.all_eq_true.mpr (fun i hi => decide_eq_true (h i hi).1)
  have h2 : (ind.all (fun i => decide (i < (g.length : ℤ) - 1))) = true :=
    List.all_eq_true.mpr (fun i hi => decide_eq_true (h i hi).2)
  simp [image_to_world, h1, h2]

/-! ### Helper lemmas about the edge-grid builder -/

theorem arangeMap_length (m : ℤ) (s o : ℚ) :
    ((npArange m).map (fun p => p * s + o)).length = m.toNat := by
  unfold npArange
  rw [List.length_map, List.length_map, List.length_range]

theorem arangeMap_getD (m : ℤ) (s o : ℚ) {k : ℕ} (hk : k < m.toNat) :
    ((npArange m).map (fun p => p * s + o)).getD k 0 = (k : ℚ) * s + o := by
  rw [List.getD_eq_getElem _ _ (by rw [arangeMap_length]; exact hk)]
  simp only [npArange, List.getElem_map, List.getElem_range]

theorem arangeMap_asc (m : ℤ) {s : ℚ} (o : ℚ) (hs : 0 < s) :
    ((npArange m).map (fun p => p * s + o)).Pairwise (· < ·) := by
  rw [List.pairwise_iff_getElem]
  intro i j hi hj hij
  simp only [npArange, List.getElem_map, List.getElem_range]
  have hc : (i : ℚ) < (j : ℚ) := Nat.cast_lt.mpr hij
  exact add_lt_add_right (mul_lt_mul_of_pos_right hc hs) o

theorem arangeMap_desc (m : ℤ) {s : ℚ} (o : ℚ) (hs : s < 0) :
    ((npArange m).map (fun p => p * s + o)).Pairwise (· > ·) := by
  rw [List.pairwise_iff_getElem]
  intro i j hi hj hij
  simp only [npArange, List.getElem_map, List.getElem_range]
  have hc : (i : ℚ) < (j : ℚ) := Nat.cast_lt.mpr hij
  exact add_lt_add_right (mul_lt_mul_of_neg_right hc hs) o

theorem arangeMap_mono (m : ℤ) {s : ℚ} (o : ℚ) (hs : s ≠ 0) :
    ((npArange m).map (fun p => p * s + o)).Pairwise (· < ·) ∨
    ((npArange m).map (fun p => p * s + o)).Pairwise (· > ·) := by
  rcases lt_trichotomy s 0 with hneg | hz | hpos
  · exact Or.inr (arangeMap_desc m o hneg)
  · exact absurd hz hs
  · exact Or.inl (arangeMap_asc m o hpos)

/-- The builder on a transform passing `is_rectilinear` returns the two
arithmetic edge grids. -/
theorem pixel_coordinates_ok {w h : ℤ} {A : Affine}
    (hrect : A.isRectilinear = true) :
    pixel_coordinates w h A =
      .ok ((npArange (w + 1)).map (fun p => p * A.a + A.c),
        (npArange (h + 1)).map (fun p => p * (-1 * A.e) + A.f)) := by
  simp [pixel_coordinates, hrect]

/-- Inversion of a successful builder call. -/
theorem pc_elim {w h : ℤ} {A : Affine} {gx gy : List ℚ}
    (hpc : pixel_coordinates w h A = .ok (gx, gy)) :
    A.isRectilinear = true ∧
    gx = (npArange (w + 1)).map (fun p => p * A.a + A.c) ∧
    gy = (npArange (h + 1)).map (fun p => p * (-1 * A.e) + A.f) := by
  by_cases hrect : A.isRectilinear = true
  · refine ⟨hrect, ?_⟩
    rw [pixel_coordinates_ok hrect] at hpc
    simp only [Except.ok.injEq, Prod.mk.injEq] at hpc
    exact ⟨hpc.1.symm, hpc.2.symm⟩
  · simp [pixel_coordinates, hrect] at hpc

/-- Round trip through one axis: forward lookup then inverse lookup is
the identity on any in-range index of a strictly monotone grid. -/
theorem roundtrip_axis {g : List ℚ}
    (hmono : g.Pairwise (· < ·) ∨ g.Pairwise (· > ·))
    {i : ℤ} (h0 : 0 ≤ i) (hi : i < (g.length : ℤ) - 1) :
    (image_to_world ⟨.int64, 1, [i]⟩ ⟨.float64, 1, g⟩).bind
      (fun ws => world_to_image ws g) = .ok [i] := by
  have hlen : 2 ≤ g.length := by omega
  have hins : ∀ x ∈ [i], 0 ≤ x ∧ x < (g.length : ℤ) - 1 := by
    intro x hx
    rw [List.mem_singleton] at hx
    subst hx
    exact ⟨h0, hi⟩
  rw [itw_ok hins]
  simp only [Except.bind, List.map_cons, List.map_nil]
  have hnat : i.toNat + 1 < g.length := by omega
  rcases hmono with hp | hp
  · rw [wti_ok_asc hp hnat (le_refl (g.getD i.toNat 0))
      (pairwise_getD hp (Nat.lt_succ_self _) hnat),
      Int.toNat_of_nonneg h0]
  · rw [wti_ok_desc hp hnat (le_refl (g.getD i.toNat 0))
      (pairwise_getD hp (Nat.lt_succ_self _) hnat),
      Int.toNat_of_nonneg h0]

/-! ### Claim theorems -/

/-- C3: for every positive width and height and every rectilinear
(zero-shear) transform, `pixel_coordinates` returns grids of lengths
`width + 1` and `height + 1` with x-edge `i = i * scale_x + origin_x`
and y-edge `i = i * (-scale_y) + origin_y`. -/
theorem C3_edge_grid_builder (w h : ℤ) (A : Affine) (hw : 0 < w)
    (hh : 0 < h) (hb : A.b = 0) (hd : A.d = 0) :
    ∃ gx gy, pixel_coordinates w h A = .ok (gx, gy) ∧
      (gx.length : ℤ) = w + 1 ∧ (gy.length : ℤ) = h + 1 ∧
      (∀ i : ℤ, 0 ≤ i → i ≤ w → gx.getD i.toNat 0 = i * A.a + A.c) ∧
      (∀ i : ℤ, 0 ≤ i → i ≤ h → gy.getD i.toNat 0 = i * (-A.e) + A.f) := by
  have hrect : A.isRectilinear = true := by
    simp [Affine.isRectilinear, hb, hd]
  refine ⟨_, _, pixel_coordinates_ok hrect, ?_, ?_, ?_, ?_⟩
  · rw [arangeMap_length]
    omega
  · rw [arangeMap_length]
    omega
  · intro i h0 hiw
    rw [arangeMap_getD _ _ _ (show i.toNat < (w + 1).toNat by omega)]
    have hcast : ((i.toNat : ℕ) : ℚ) = (i : ℚ) := by
      exact_mod_cast congrArg (fun z : ℤ => (z : ℚ)) (Int.toNat_of_nonneg h0)
    rw [hcast]
  · intro i h0 hih
    rw [arangeMap_getD _ _ _ (show i.toNat < (h + 1).toNat by omega)]
    have hcast : ((i.toNat : ℕ) : ℚ) = (i : ℚ) := by
      exact_mod_cast congrArg (fun z : ℤ => (z : ℚ)) (Int.toNat_of_nonneg h0)
    rw [hcast]
    ring

/-- C3 witness at `width = 3`, `height = 2` and the unit north-up
transform. -/
theorem C3_edge_grid_builder_witness :
    ∃ gx gy, pixel_coordinates 3 2 ⟨1, 0, 0, 0, -1, 0⟩ = .ok (gx, gy) ∧
      (gx.length : ℤ) = 3 + 1 ∧ (gy.length : ℤ) = 2 + 1 ∧
      (∀ i : ℤ, 0 ≤ i → i ≤ 3 →
        gx.getD i.toNat 0 = i * (1 : ℚ) + 0) ∧
      (∀ i : ℤ, 0 ≤ i → i ≤ 2 →
        gy.getD i.toNat 0 = i * (-(-1) : ℚ) + 0) :=
  C3_edge_grid_builder 3 2 ⟨1, 0, 0, 0, -1, 0⟩ (by decide) (by decide)
    rfl rfl

/-- C6: for positive dimensions and nonzero scales, both grids built by
`pixel_coordinates` are strictly monotonic along their full length. -/
theorem C6_monotonicity (w h : ℤ) (A : Affine) (hw : 0 < w) (hh : 0 < h)
    (ha : A.a ≠ 0) (he : A.e ≠ 0) (gx gy : List ℚ)
    (hpc : pixel_coordinates w h A = .ok (gx, gy)) :
    (gx.Pairwise (· < ·) ∨ gx.Pairwise (· > ·)) ∧
    (gy.Pairwise (· < ·) ∨ gy.Pairwise (· > ·)) := by
  obtain ⟨-, hgx, hgy⟩ := pc_elim hpc
  subst hgx
  subst hgy
  refine ⟨arangeMap_mono _ _ ha, arangeMap_mono _ _ ?_⟩
  intro hcon
  apply he
  linarith

/-- C6 witness on a descending x-axis and ascending y-axis raster. -/
theorem C6_monotonicity_witness :
    (([(6 : ℚ), 4, 2].Pairwise (· < ·) ∨
      [(6 : ℚ), 4, 2].Pairwise (· > ·)) ∧
     ([(5 : ℚ), 6, 7].Pairwise (· < ·) ∨
      [(5 : ℚ), 6, 7].Pairwise (· > ·))) := by
  have hpc : pixel_coordinates 2 2 ⟨-2, 0, 6, 0, -1, 5⟩ =
      .ok ([6, 4, 2], [5, 6, 7]) := by
    simp [pixel_coordinates, Affine.isRectilinear, npArange]
    constructor <;> norm_num [List.range_succ]
  exact C6_monotonicity 2 2 ⟨-2, 0, 6, 0, -1, 5⟩ (by decide) (by decide)
    (by norm_num) (by norm_num) [6, 4, 2] [5, 6, 7] hpc

/-- C7 counterexample: the builder checks only rectilinearity.  A zero
scale on both axes (width/height positive) and a negative width both
produce a grid with no error, where the claim requires a
`ConfigurationError`. -/
theorem C7_counterexample :
    pixel_coordinates 1 1 ⟨0, 0, 0, 0, 0, 0⟩ = .ok ([0, 0], [0, 0]) ∧
    pixel_coordinates (-3) 5 ⟨1, 0, 0, 0, 1, 0⟩ =
      .ok ([], [0, -1, -2, -3, -4, -5]) := by
  constructor
  · simp [pixel_coordinates, Affine.isRectilinear, npArange]
    constructor <;> simp [List.range_succ]
  · simp [pixel_coordinates, Affine.isRectilinear, npArange]
    norm_num [List.range_succ]

/-- C7 amended: `pixel_coordinates` fails — with a bare assertion
error — exactly when the transform is not `is_rectilinear`; zero axis
scales and non-positive dimensions are not validated. -/
theorem C7_amended (w h : ℤ) (A : Affine) :
    (pixel_coordinates w h A = .error .assertionError ↔
      A.isRectilinear = false) ∧
    (∀ e, pixel_coordinates w h A = .error e → e = .assertionError) := by
  by_cases hrect : A.isRectilinear = true
  · constructor
    · rw [pixel_coordinates_ok hrect]
      constructor
      · intro hcon
        exact absurd hcon (by simp)
      · intro hcon
        rw [hrect] at hcon
        exact absurd hcon (by simp)
    · intro e he
      rw [pixel_coordinates_ok hrect] at he
      exact absurd he (by simp)
  · have herr : pixel_coordinates w h A = .error .assertionError := by
      simp [pixel_coordinates, hrect]
    constructor
    · rw [herr]
      simp [Bool.not_eq_true] at hrect
      simp [hrect]
    · intro e he
      rw [herr] at he
      exact (Except.error.injEq _ _).mp he.symm

/-- C7 amended witness: a sheared transform is rejected with the
assertion error. -/
theorem C7_amended_witness :
    pixel_coordinates 2 2 ⟨1, 2, 3, 4, 5, 6⟩ = .error .assertionError :=
  (C7_amended 2 2 ⟨1, 2, 3, 4, 5, 6⟩).1.mpr rfl

/-- C8 counterexample: a negative index and an index past the end both
fail with the same bare assertion error, which therefore cannot
identify the offending index (and is not a structured `RangeError`). -/
theorem C8_counterexample :
    image_to_world ⟨.int64, 1, [-1]⟩ ⟨.float64, 1, [0, 1, 2]⟩ =
      .error .assertionError ∧
    image_to_world ⟨.int64, 1, [5]⟩ ⟨.float64, 1, [0, 1, 2]⟩ =
      .error .assertionError :=
  ⟨rfl, rfl⟩

/-- C8 amended: any index that is negative or not strictly less than
`len(edge_grid) - 1` makes `image_to_world` fail with a bare assertion
error (carrying no index information); otherwise it returns the grid
value at each index.  No clamping occurs in either case. -/
theorem C8_amended (ind : List ℤ) (g : List ℚ) :
    ((∃ i ∈ ind, i < 0 ∨ (g.length : ℤ) - 1 ≤ i) →
      image_to_world ⟨.int64, 1, ind⟩ ⟨.float64, 1, g⟩ =
        .error .assertionError) ∧
    ((∀ i ∈ ind, 0 ≤ i ∧ i < (g.length : ℤ) - 1) →
      image_to_world ⟨.int64, 1, ind⟩ ⟨.float64, 1, g⟩ =
        .ok (ind.map (fun i => g.getD i.toNat 0))) := by
  constructor
  · rintro ⟨i, hi, hbad⟩
    by_cases h5 : (ind.all (fun x => decide (0 ≤ x))) = true
    · have h0 : 0 ≤ i := of_decide_eq_true (List.all_eq_true.mp h5 i hi)
      have h6 : (ind.all
          (fun x => decide (x < (g.length : ℤ) - 1))) = false := by
        rw [List.all_eq_false]
        refine ⟨i, hi, ?_⟩
        simp only [decide_eq_true_eq]
        omega
      simp [image_to_world, h5, h6]
    · simp [image_to_world, h5]
  · exact fun h9 => itw_ok h9

/-- C8 amended witness: index 7 against a 2-edge grid fails with the
assertion error. -/
theorem C8_amended_witness :
    image_to_world ⟨.int64, 1, [(7 : ℤ)]⟩ ⟨.float64, 1, [0, 1]⟩ =
      .error .assertionError :=
  (C8_amended [7] [0, 1]).1 ⟨7, by decide, by decide⟩

/-- C9: empty index and coordinate batches are accepted and return
empty results, with the validations passing vacuously. -/
theorem C9_empty_batches (g : List ℚ) (hlen : 2 ≤ g.length) :
    image_to_world ⟨.int64, 1, ([] : List ℤ)⟩ ⟨.float64, 1, g⟩ =
      .ok [] ∧
    world_to_image [] g = .ok [] := by
  constructor
  · have := @itw_ok ([] : List ℤ) g
      (fun i hi => absurd hi (List.not_mem_nil i))
    simpa using this
  · have := @wti_ok_of_closed g ([] : List ℚ) hlen
      (fun q hq => absurd hq (List.not_mem_nil q))
    simpa using this

/-- C9 witness on the two-edge grid `[0, 1]`. -/
theorem C9_empty_batches_witness :
    image_to_world ⟨.int64, 1, ([] : List ℤ)⟩ ⟨.float64, 1, [0, 1]⟩ =
      .ok [] ∧
    world_to_image [] [0, 1] = .ok [] :=
  C9_empty_batches [0, 1] (by decide)

/-- C10: `image_to_world` fails with an assertion error whenever the
index array is not a one-dimensional int64 array or the grid is not a
one-dimensional float64 array, regardless of the index values. -/
theorem C10_shape_dtype (ind : List ℤ) (g : List ℚ) (di dg : Dtype)
    (ni ng : ℕ)
    (h : ¬ (ni = 1 ∧ di = Dtype.int64 ∧ ng = 1 ∧ dg = Dtype.float64)) :
    image_to_world ⟨di, ni, ind⟩ ⟨dg, ng, g⟩ = .error .assertionError := by
  by_cases h1 : ni = 1
  · by_cases h2 : di = Dtype.int64
    · by_cases h3 : ng = 1
      · by_cases h4 : dg = Dtype.float64
        · exact absurd ⟨h1, h2, h3, h4⟩ h
        · simp [image_to_world, h1, h2, h3, h4]
      · simp [image_to_world, h1, h2, h3]
    · simp [image_to_world, h1, h2]
  · simp [image_to_world, h1]

/-- C10 witness: the in-range index array `[0]` with dtype int32 is
refused rather than looked up. -/
theorem C10_shape_dtype_witness :
    image_to_world ⟨Dtype.int32, 1, [(0 : ℤ)]⟩
      ⟨Dtype.float64, 1, [0, 1]⟩ = .error .assertionError :=
  C10_shape_dtype [0] [0, 1] .int32 .float64 1 1 (by decide)

/-- C1: for grids built from positive width/height, a rectilinear
transform and nonzero axis scales, looking up any in-range pixel index
forward and then inverse returns exactly that index, on either axis. -/
theorem C1_roundtrip (w h : ℤ) (A : Affine) (hw : 0 < w) (hh : 0 < h)
    (ha : A.a ≠ 0) (he : A.e ≠ 0) (gx gy : List ℚ)
    (hpc : pixel_coordinates w h A = .ok (gx, gy)) (i : ℤ) (h0 : 0 ≤ i) :
    (i < w →
      (image_to_world ⟨.int64, 1, [i]⟩ ⟨.float64, 1, gx⟩).bind
        (fun ws => world_to_image ws gx) = .ok [i]) ∧
    (i < h →
      (image_to_world ⟨.int64, 1, [i]⟩ ⟨.float64, 1, gy⟩).bind
        (fun ws => world_to_image ws gy) = .ok [i]) := by
  obtain ⟨-, hgx, hgy⟩ := pc_elim hpc
  subst hgx
  subst hgy
  constructor
  · intro hiw
    refine roundtrip_axis (arangeMap_mono _ _ ha) h0 ?_
    rw [arangeMap_length]
    omega
  · intro hih
    have hs : (-1 : ℚ) * A.e ≠ 0 := by
      intro hcon
      apply he
      linarith
    refine roundtrip_axis (arangeMap_mono _ _ hs) h0 ?_
    rw [arangeMap_length]
    omega

/-- C1 witness: index 1 on the x axis of a 3×2 raster with unit scales
round-trips. -/
theorem C1_roundtrip_witness :
    (image_to_world ⟨.int64, 1, [1]⟩ ⟨.float64, 1, [0, 1, 2, 3]⟩).bind
      (fun ws => world_to_image ws [0, 1, 2, 3]) = .ok [1] := by
  have hpc : pixel_coordinates 3 2 ⟨1, 0, 0, 0, -1, 0⟩ =
      .ok ([0, 1, 2, 3], [0, 1, 2]) := by
    simp [pixel_coordinates, Affine.isRectilinear, npArange]
    constructor <;> norm_num [List.range_succ]
  exact (C1_roundtrip 3 2 ⟨1, 0, 0, 0, -1, 0⟩ (by decide) (by decide)
    (by norm_num) (by norm_num) [0, 1, 2, 3] [0, 1, 2] hpc 1
    (by decide)).1 (by decide)

/-- C2: on a strictly monotone grid, the inverse lookup maps a query to
an interior pixel index `i` exactly when the query lies in pixel `i`'s
half-open interval measured in the grid's direction of increase. -/
theorem C2_half_open (g : List ℚ) (i : ℕ) (hi : i + 2 < g.length)
    (q : ℚ) :
    (g.Pairwise (· < ·) →
      (world_to_image [q] g = .ok [(i : ℤ)] ↔
        g.getD i 0 ≤ q ∧ q < g.getD (i + 1) 0)) ∧
    (g.Pairwise (· > ·) →
      (world_to_image [q] g = .ok [(i : ℤ)] ↔
        q ≤ g.getD i 0 ∧ g.getD (i + 1) 0 < q)) := by
  have hlen : 2 ≤ g.length := by omega
  constructor
  · intro hp
    constructor
    · intro hok
      obtain ⟨-, hci⟩ := wti_singleton_ok_elim hok
      have hqlast : q ≠ (g.getLast?).getD 0 := by
        intro hcon
        have hql : q = g.getD (g.length - 1) 0 := by
          rw [hcon, getLast_getD (by omega)]
        rw [hql, closedIndex_last hlen (Or.inl hp)] at hci
        omega
      rw [closedIndex, if_neg hqlast, rawIndex_asc hp hlen] at hci
      have hss : searchsortedRight g q = i + 1 := by omega
      constructor
      · exact (ssRight_iff q g hp i (by omega)).mpr (by omega)
      · by_contra hcon
        have := (ssRight_iff q g hp (i + 1) (by omega)).mp (not_lt.mp hcon)
        omega
    · rintro ⟨h1, h2⟩
      exact wti_ok_asc hp (by omega) h1 h2
  · intro hp
    have hrev : g.reverse.Pairwise (· < ·) := pairwise_reverse_of_desc hp
    constructor
    · intro hok
      obtain ⟨-, hci⟩ := wti_singleton_ok_elim hok
      have hqlast : q ≠ (g.getLast?).getD 0 := by
        intro hcon
        have hql : q = g.getD (g.length - 1) 0 := by
          rw [hcon, getLast_getD (by omega)]
        rw [hql, closedIndex_last hlen (Or.inr hp)] at hci
        omega
      rw [closedIndex, if_neg hqlast, rawIndex_desc hp hlen] at hci
      have hss : searchsortedLeft g.reverse q = g.length - 1 - i := by
        omega
      constructor
      · have hnot : ¬ (g.length - 1 - i < searchsortedLeft g.reverse q) := by
          omega
        have hx : ¬ (g.reverse.getD (g.length - 1 - i) 0 < q) :=
          fun hlt => hnot ((ssLeft_iff q g.reverse hrev (g.length - 1 - i)
            (by rw [List.length_reverse]; omega)).mp hlt)
        rw [reverse_getD (by omega),
          show g.length - 1 - (g.length - 1 - i) = i by omega] at hx
        exact not_lt.mp hx
      · have hlt : g.length - 2 - i < searchsortedLeft g.reverse q := by
          omega
        have hx := (ssLeft_iff q g.reverse hrev (g.length - 2 - i)
          (by rw [List.length_reverse]; omega)).mpr hlt
        rw [reverse_getD (by omega),
          show g.length - 1 - (g.length - 2 - i) = i + 1 by omega] at hx
        exact hx
    · rintro ⟨h1, h2⟩
      exact wti_ok_desc hp (by omega) h1 h2

/-- C2 witness: on the ascending grid `[0, 1, 2, 3]`, the query `1/2`
is mapped to pixel 0, by the half-open characterization. -/
theorem C2_half_open_witness :
    world_to_image [(1 / 2 : ℚ)] [0, 1, 2, 3] = .ok [0] :=
  ((C2_half_open [0, 1, 2, 3] 0 (by decide) (1 / 2)).1
    (by decide)).mpr (by norm_num)

/-- C4: a query equal to the final edge maps to the last pixel index
with no error, and the closure adjustment applies at no other query
coordinate. -/
theorem C4_boundary_closure (g : List ℚ) (hlen : 2 ≤ g.length)
    (hmono : g.Pairwise (· < ·) ∨ g.Pairwise (· > ·)) :
    world_to_image [g.getD (g.length - 1) 0] g =
      .ok [(g.length : ℤ) - 2] ∧
    ∀ q : ℚ, q ≠ (g.getLast?).getD 0 → closedIndex g q = rawIndex g q := by
  refine ⟨wti_last_edge hlen hmono, ?_⟩
  intro q hq
  rw [closedIndex, if_neg hq]

/-- C4 witness: on `[0, 1, 2]` the exact final edge 2 maps to pixel 1
(`pixel_count - 1`). -/
theorem C4_boundary_closure_witness :
    world_to_image [(2 : ℚ)] [0, 1, 2] = .ok [1] :=
  (C4_boundary_closure [0, 1, 2] (by decide) (Or.inl (by decide))).1

/-- C5 counterexample: two different out-of-bounds coordinates produce
the identical fixed-message `ValueError`, so the error cannot name the
failing coordinate or the grid's valid range. -/
theorem C5_counterexample :
    world_to_image [(5 : ℚ)] [0, 1] =
      .error (.valueError "Queried location is not in the image") ∧
    world_to_image [(7 : ℚ)] [0, 1] =
      .error (.valueError "Queried location is not in the image") :=
  ⟨rfl, rfl⟩

/-- C5 amended: if any query coordinate lies outside the closed
interval spanned by a strictly monotone grid, the whole call fails with
the fixed-message `ValueError` (no partial results, no clamping); the
error does not name the failing coordinate or the valid range. -/
theorem C5_amended (g points : List ℚ) (hlen : 2 ≤ g.length)
    (hmono : g.Pairwise (· < ·) ∨ g.Pairwise (· > ·))
    (hout : ∃ q ∈ points,
      q < min (g.getD 0 0) (g.getD (g.length - 1) 0) ∨
      max (g.getD 0 0) (g.getD (g.length - 1) 0) < q) :
    world_to_image points g =
      .error (.valueError "Queried location is not in the image") := by
  obtain ⟨q, hq, hbad⟩ := hout
  refine wti_error_of_bad hlen hq ?_
  rcases hmono with hp | hp
  · rcases hbad with hlow | hhigh
    · rw [closedIndex_lt_first_asc hp hlen
        (lt_of_lt_of_le hlow (min_le_left _ _))]
      omega
    · rw [closedIndex_gt_last_asc hp hlen
        (lt_of_le_of_lt (le_max_right _ _) hhigh)]
      omega
  · rcases hbad with hlow | hhigh
    · rw [closedIndex_lt_last_desc hp hlen
        (lt_of_lt_of_le hlow (min_le_right _ _))]
      omega
    · rw [closedIndex_gt_first_desc hp hlen
        (lt_of_le_of_lt (le_max_left _ _) hhigh)]
      omega

/-- C5 amended witness: the out-of-bounds query 5 on `[0, 1, 2, 3]`
fails with the fixed error. -/
theorem C5_amended_witness :
    world_to_image [(5 : ℚ)] [0, 1, 2, 3] =
      .error (.valueError "Queried location is not in the image") :=
  C5_amended [0, 1, 2, 3] [5] (by decide) (Or.inl (by decide))
    ⟨5, by decide, Or.inr (by norm_num)⟩

end Landshark
